import Mathlib

/-!
Verification of the storage backends of the session-store repository.

The JavaScript Map objects of the memory backend are modelled as
association lists kept in insertion order, which is exactly the iteration
and update discipline of a JS Map: `set` on an existing key updates the
value in place, `set` on a fresh key appends at the end, `delete` removes
the entry, and iteration visits the live entries in insertion order
(an entry deleted before the iterator reaches it is skipped).

The clock (`Date.now()`) is passed explicitly as a `now : Nat` argument to
every operation that reads it.  Callbacks are elided: an operation that
passes a value to its callback is modelled as returning that value, paired
with the post-state when the operation can mutate the store.
-/

namespace SessionStore

/-- Model of `m.get k` on a JS Map held as an insertion-ordered list. -/
def mapGet {κ ν : Type} [DecidableEq κ] (k : κ) : List (κ × ν) → Option ν
  | [] => none
  | (k₀, v) :: rest => if k₀ = k then some v else mapGet k rest

/-- Model of `m.set k v` on a JS Map: update in place if the key exists,
otherwise append at the end. -/
def mapSet {κ ν : Type} [DecidableEq κ] (k : κ) (v : ν) : List (κ × ν) → List (κ × ν)
  | [] => [(k, v)]
  | (k₀, v₀) :: rest => if k₀ = k then (k, v) :: rest else (k₀, v₀) :: mapSet k v rest

/-- Model of `m.delete k` on a JS Map: drop the entry with that key
(keys are unique in a Map, so dropping every occurrence is the same). -/
def mapDelete {κ ν : Type} [DecidableEq κ] (k : κ) : List (κ × ν) → List (κ × ν)
  | [] => []
  | (k₀, v₀) :: rest =>
    if k₀ = k then mapDelete k rest else (k₀, v₀) :: mapDelete k rest

/-- One stored record of the memory backend: the session payload (the
source stores a shallow copy `\x7b...session\x7d`, structurally equal to the
argument) together with the absolute expiry timestamp. -/
structure SessionData (α : Type) where
  data : α
  expires : Nat
deriving DecidableEq

/-- State of `MemoryStore` (src/storages/memoryStore.js): the primary map
`sessions : sid -> record`, the secondary index
`expirationIndex : expires -> sid`, and the configured `maxAge`.  The
interval-timer bookkeeping fields are not part of the store state proper
and are omitted. -/
structure MemoryStore (α : Type) where
  sessions : List (String × SessionData α)
  expirationIndex : List (Nat × String)
  maxAge : Nat
deriving DecidableEq

namespace MemoryStore

/-- `set(sid, session, cb)` of memoryStore.js: `expires = Date.now() + maxAge`;
`sessions.set(sid, \x7bdata, expires\x7d)`; `expirationIndex.set(expires, sid)`.
There is no error path: the callback always receives `null`. -/
def set {α : Type} (st : MemoryStore α) (now : Nat) (sid : String) (session : α) :
    MemoryStore α :=
  { st with
    sessions := mapSet sid ⟨session, now + st.maxAge⟩ st.sessions
    expirationIndex := mapSet (now + st.maxAge) sid st.expirationIndex }

/-- `destroy(sid, cb)` of memoryStore.js: if the record exists, delete it
from `sessions` and delete the index entry keyed by that record own
`expires` value (whatever sid that entry currently holds). -/
def destroy {α : Type} (st : MemoryStore α) (sid : String) : MemoryStore α :=
  match mapGet sid st.sessions with
  | none => st
  | some sd =>
    { st with
      sessions := mapDelete sid st.sessions
      expirationIndex := mapDelete sd.expires st.expirationIndex }

/-- `get(sid, cb)` of memoryStore.js: a miss when the record is absent or
`Date.now() > expires`; in the present-but-expired case `destroy` runs as a
side effect.  Returns the callback value paired with the post-state. -/
def get {α : Type} (st : MemoryStore α) (now : Nat) (sid : String) :
    Option α × MemoryStore α :=
  match mapGet sid st.sessions with
  | none => (none, st)
  | some sd =>
    if now > sd.expires then (none, st.destroy sid)
    else (some sd.data, st)

/-- `all(cb)` of memoryStore.js: filter the entries with
`Date.now() < expires`, project to `(sid, data)` pairs.  The method body
contains no mutation, so the post-state is the input state. -/
def all {α : Type} (st : MemoryStore α) (now : Nat) :
    List (String × α) × MemoryStore α :=
  ((st.sessions.filter fun p => decide (now < p.2.expires)).map fun p => (p.1, p.2.data),
   st)

/-- `length(cb)` of memoryStore.js: the raw size of the primary map. -/
def length {α : Type} (st : MemoryStore α) : Nat := st.sessions.length

/-- `clear(cb)` of memoryStore.js: empty both maps. -/
def clear {α : Type} (st : MemoryStore α) : MemoryStore α :=
  { st with sessions := [], expirationIndex := [] }

/-- `touch(sid, session, cb)` of memoryStore.js: when the record exists,
overwrite its payload and expiry (`newExpires = Date.now() + maxAge`),
delete the index entry keyed by the old expiry, insert the new one.
No-op when the record is absent. -/
def touch {α : Type} (st : MemoryStore α) (now : Nat) (sid : String) (session : α) :
    MemoryStore α :=
  match mapGet sid st.sessions with
  | none => st
  | some sd =>
    { st with
      sessions := mapSet sid ⟨session, now + st.maxAge⟩ st.sessions
      expirationIndex :=
        mapSet (now + st.maxAge) sid (mapDelete sd.expires st.expirationIndex) }

/-- Body of the `for (let [expires, sid] of this.expirationIndex)` loop of
`cleanupSessions`.  `pending` is the iterator: the entries of the index at
loop entry, visited in insertion order; an entry whose key was deleted by
an earlier `destroy` before the iterator reaches it is skipped (JS Map
iterator semantics; during the loop entries are only deleted, never added,
so presence of the key means the pair is unchanged). -/
def cleanupLoop {α : Type} (now : Nat) :
    List (Nat × String) → MemoryStore α → MemoryStore α
  | [], st => st
  | (expires, sid) :: rest, st =>
    if (mapGet expires st.expirationIndex).isSome then
      if expires ≤ now then
        cleanupLoop now rest
          { st.destroy sid with
            expirationIndex := mapDelete expires (st.destroy sid).expirationIndex }
      else st
    else cleanupLoop now rest st

/-- `cleanupSessions()` of memoryStore.js: `now = Date.now()` read once,
then the loop above over the current index, breaking at the first entry
with `expires > now`. -/
def cleanupSessions {α : Type} (st : MemoryStore α) (now : Nat) : MemoryStore α :=
  cleanupLoop now st.expirationIndex st

/-- `rebuildIndex()` of memoryStore.js: walk `sessions`; a live entry
(`expires > Date.now()`) gets a fresh `newIndex.set(expires, sid)`, an
expired entry is deleted from `sessions` in place; finally the new index
replaces the old one.  Deleting the entry under the iterator only removes
the entry being visited, so the walk is a plain filter of `sessions`.
`rebuildStep` is the body of the walk acting on the new index. -/
def rebuildStep {α : Type} (now : Nat) (acc : List (Nat × String))
    (p : String × SessionData α) : List (Nat × String) :=
  if now < p.2.expires then mapSet p.2.expires p.1 acc else acc

/-- See `rebuildStep`. -/
def rebuildIndex {α : Type} (st : MemoryStore α) (now : Nat) : MemoryStore α :=
  { st with
    sessions := st.sessions.filter fun p => decide (now < p.2.expires)
    expirationIndex := st.sessions.foldl (rebuildStep now) [] }

/-- The store operations of the memory backend named in the claims, for
reasoning about operation sequences. -/
inductive MemOp (α : Type) where
  | setOp (sid : String) (session : α)
  | getOp (sid : String)
  | destroyOp (sid : String)
  | touchOp (sid : String) (session : α)
  | cleanupOp
  | rebuildOp
deriving DecidableEq

/-- One operation applied to the store at clock reading `now` (the
returned callback values are dropped; only the post-state is kept). -/
def step {α : Type} (st : MemoryStore α) (now : Nat) : MemOp α → MemoryStore α
  | .setOp sid s => st.set now sid s
  | .getOp sid => (st.get now sid).2
  | .destroyOp sid => st.destroy sid
  | .touchOp sid s => st.touch now sid s
  | .cleanupOp => st.cleanupSessions now
  | .rebuildOp => st.rebuildIndex now

/-- A sequence of timestamped operations applied in order. -/
def run {α : Type} (st : MemoryStore α) : List (Nat × MemOp α) → MemoryStore α
  | [] => st
  | (now, op) :: rest => (st.step now op).run rest

/-- The expiry currently stored for `sid`, if any. -/
def lookupExpires {α : Type} (st : MemoryStore α) (sid : String) : Option Nat :=
  (mapGet sid st.sessions).map SessionData.expires

/-- Store well-formedness at clock reading `now`: the primary map has no
duplicate keys (true of a JS Map by construction) and every stored expiry
was computed as `t + maxAge` for some past `t ≤ now`. -/
def WF {α : Type} (st : MemoryStore α) (now : Nat) : Prop :=
  (st.sessions.map Prod.fst).Nodup ∧
    ∀ p ∈ st.sessions, p.2.expires ≤ now + st.maxAge

end MemoryStore

/-- Parsed content of one on-disk record of fileStore.js:
`\x7bsid, session, expires\x7d` with `expires` an ISO timestamp, modelled as a
`Nat` instant; `none` models a record whose `expires` field is missing or
falsy (the source guards `sessionData.expires && ...`). -/
structure FileRecord (α : Type) where
  sid : String
  session : α
  expires : Option Nat
deriving DecidableEq

/-- What the filesystem holds for one session id, as seen by
`fs.readFile`: no file (ENOENT), a file whose read fails with another
error, or a readable file together with the outcome of `JSON.parse` on its
content (`none` = the parse, or the subsequent field access on the parsed
value, throws — the try/catch of the source maps both to the same parse
error). -/
inductive FileState (α : Type) where
  | absent
  | unreadable
  | content (parsed : Option (FileRecord α))
deriving DecidableEq

/-- The four mutually exclusive callback outcomes of fileStore.js `get`:
no record (callback with no arguments), the corruption error
"Failed to parse session data", the read error
"Failed to read session data", or a session payload. -/
inductive FileGetResult (α : Type) where
  | noRecord
  | parseFailure
  | readFailure
  | found (session : α)
deriving DecidableEq

/-- `get(sid, cb)` of fileStore.js over the modelled filesystem state of
that sid: ENOENT → no record; other read failure → read error; unparsable
content → corruption error; a parsed record with a truthy `expires ≤ now`
→ `destroy` (the file is unlinked, so the post-state is `absent`; the
destroy callback discards any unlink error) and no record; otherwise the
stored session is returned (the source also revives an embedded
cookie-expiry string into a Date object in place, a type-level coercion
that is the identity on the opaque payload).  Returns the callback value
paired with the post-state of the file. -/
def FileStore.get {α : Type} (file : FileState α) (now : Nat) :
    FileGetResult α × FileState α :=
  match file with
  | .absent => (.noRecord, .absent)
  | .unreadable => (.readFailure, .unreadable)
  | .content none => (.parseFailure, .content none)
  | .content (some r) =>
    match r.expires with
    | some e =>
      if e ≤ now then (.noRecord, .absent)
      else (.found r.session, .content (some r))
    | none => (.found r.session, .content (some r))

/-! Basic lemmas about the JS Map model. -/

theorem mapGet_nil {κ ν : Type} [DecidableEq κ] (k : κ) :
    mapGet (ν := ν) k [] = none := rfl

theorem mapGet_mapSet_self {κ ν : Type} [DecidableEq κ] (k : κ) (v : ν)
    (l : List (κ × ν)) : mapGet k (mapSet k v l) = some v := by
  induction l with
  | nil => simp [mapGet, mapSet]
  | cons p rest ih =>
    obtain ⟨k₀, v₀⟩ := p
    by_cases h : k₀ = k
    · simp [mapSet, h, mapGet]
    · simp [mapSet, h, mapGet, ih]

theorem mapGet_mapSet_ne {κ ν : Type} [DecidableEq κ] {k k₁ : κ} (v : ν)
    (l : List (κ × ν)) (h : k₁ ≠ k) : mapGet k₁ (mapSet k v l) = mapGet k₁ l := by
  have h₂ : ¬ k = k₁ := fun h₁ => h h₁.symm
  induction l with
  | nil => simp [mapGet, mapSet, h₂]
  | cons p rest ih =>
    obtain ⟨k₀, v₀⟩ := p
    by_cases h₀ : k₀ = k
    · subst h₀
      simp [mapSet, mapGet, h₂]
    · simp only [mapSet, if_neg h₀, mapGet]
      by_cases h₁ : k₀ = k₁ <;> simp [h₁, ih]

theorem mapGet_mapDelete_self {κ ν : Type} [DecidableEq κ] (k : κ)
    (l : List (κ × ν)) : mapGet k (mapDelete k l) = none := by
  induction l with
  | nil => rfl
  | cons p rest ih =>
    obtain ⟨k₀, v₀⟩ := p
    by_cases h : k₀ = k
    · simpa [mapDelete, h] using ih
    · simpa [mapDelete, h, mapGet] using ih

theorem mapGet_mapDelete_ne {κ ν : Type} [DecidableEq κ] {k k₁ : κ}
    (l : List (κ × ν)) (h : k₁ ≠ k) : mapGet k₁ (mapDelete k l) = mapGet k₁ l := by
  have h₂ : ¬ k = k₁ := fun h₁ => h h₁.symm
  induction l with
  | nil => rfl
  | cons p rest ih =>
    obtain ⟨k₀, v₀⟩ := p
    by_cases h₀ : k₀ = k
    · subst h₀
      simp [mapDelete, mapGet, h₂, ih]
    · simp only [mapDelete, if_neg h₀, mapGet]
      by_cases h₁ : k₀ = k₁ <;> simp [h₁, ih]

theorem mapGet_eq_none_iff {κ ν : Type} [DecidableEq κ] (k : κ) (l : List (κ × ν)) :
    mapGet k l = none ↔ k ∉ l.map Prod.fst := by
  induction l with
  | nil => simp [mapGet]
  | cons p rest ih =>
    obtain ⟨k₀, v₀⟩ := p
    by_cases h : k₀ = k
    · simp [mapGet, h]
    · have h₁ : ¬ k = k₀ := fun h₂ => h h₂.symm
      simp only [mapGet, if_neg h, ih, List.map_cons, List.mem_cons]
      tauto

theorem mapGet_mem {κ ν : Type} [DecidableEq κ] {k : κ} {v : ν} {l : List (κ × ν)}
    (h : mapGet k l = some v) : (k, v) ∈ l := by
  induction l with
  | nil => simp [mapGet] at h
  | cons p rest ih =>
    obtain ⟨k₀, v₀⟩ := p
    by_cases h₀ : k₀ = k
    · subst h₀
      rw [mapGet, if_pos rfl] at h
      injection h with h
      subst h
      exact List.mem_cons_self _ _
    · rw [mapGet, if_neg h₀] at h
      exact List.mem_cons_of_mem _ (ih h)

theorem mem_mapGet {κ ν : Type} [DecidableEq κ] {k : κ} {v : ν} {l : List (κ × ν)}
    (hnd : (l.map Prod.fst).Nodup) (h : (k, v) ∈ l) : mapGet k l = some v := by
  induction l with
  | nil => simp at h
  | cons p rest ih =>
    obtain ⟨k₀, v₀⟩ := p
    simp only [List.map_cons, List.nodup_cons] at hnd
    rcases List.mem_cons.mp h with h₁ | h₁
    · cases h₁
      simp [mapGet]
    · have hne : k₀ ≠ k := fun h₂ =>
        hnd.1 (List.mem_map.mpr ⟨(k, v), h₁, h₂.symm⟩)
      simpa [mapGet, hne] using ih hnd.2 h₁

theorem mem_mapSet {κ ν : Type} [DecidableEq κ] {k : κ} {v : ν} {p : κ × ν}
    {l : List (κ × ν)} (h : p ∈ mapSet k v l) : p = (k, v) ∨ p ∈ l := by
  induction l with
  | nil => simpa [mapSet] using h
  | cons q rest ih =>
    obtain ⟨k₀, v₀⟩ := q
    by_cases h₀ : k₀ = k
    · simp only [mapSet, if_pos h₀] at h
      rcases List.mem_cons.mp h with h₁ | h₁
      · exact Or.inl h₁
      · exact Or.inr (List.mem_cons_of_mem _ h₁)
    · simp only [mapSet, if_neg h₀] at h
      rcases List.mem_cons.mp h with h₁ | h₁
      · exact Or.inr (h₁ ▸ List.mem_cons_self _ _)
      · rcases ih h₁ with h₂ | h₂
        · exact Or.inl h₂
        · exact Or.inr (List.mem_cons_of_mem _ h₂)

theorem keys_mapSet_subset {κ ν : Type} [DecidableEq κ] (k : κ) (v : ν)
    (l : List (κ × ν)) {a : κ} (h : a ∈ (mapSet k v l).map Prod.fst) :
    a = k ∨ a ∈ l.map Prod.fst := by
  rcases List.mem_map.mp h with ⟨p, hp, rfl⟩
  rcases mem_mapSet hp with h₁ | h₁
  · subst h₁
    exact Or.inl rfl
  · exact Or.inr (List.mem_map.mpr ⟨p, h₁, rfl⟩)

theorem nodup_keys_mapSet {κ ν : Type} [DecidableEq κ] (k : κ) (v : ν)
    {l : List (κ × ν)} (hnd : (l.map Prod.fst).Nodup) :
    ((mapSet k v l).map Prod.fst).Nodup := by
  induction l with
  | nil => simp [mapSet]
  | cons p rest ih =>
    obtain ⟨k₀, v₀⟩ := p
    simp only [List.map_cons, List.nodup_cons] at hnd
    by_cases h₀ : k₀ = k
    · subst h₀
      simpa [mapSet, List.nodup_cons] using hnd
    · simp only [mapSet, if_neg h₀, List.map_cons, List.nodup_cons]
      refine ⟨fun hmem => ?_, ih hnd.2⟩
      rcases keys_mapSet_subset k v rest hmem with h₁ | h₁
      · exact h₀ h₁
      · exact hnd.1 h₁

theorem mapDelete_sublist {κ ν : Type} [DecidableEq κ] (k : κ) (l : List (κ × ν)) :
    (mapDelete k l).Sublist l := by
  induction l with
  | nil => exact List.Sublist.refl _
  | cons p rest ih =>
    obtain ⟨k₀, v₀⟩ := p
    by_cases h : k₀ = k
    · simpa [mapDelete, h] using List.Sublist.cons (k, v₀) ih
    · simpa [mapDelete, h] using List.Sublist.cons₂ (k₀, v₀) ih

theorem isSome_mapGet_of_mem {κ ν : Type} [DecidableEq κ] {k : κ} {v : ν}
    {l : List (κ × ν)} (h : (k, v) ∈ l) : (mapGet k l).isSome = true := by
  rcases h₀ : mapGet k l with _ | w
  · exact absurd (List.mem_map.mpr ⟨(k, v), h, rfl⟩) ((mapGet_eq_none_iff k l).mp h₀)
  · rfl

theorem mem_mapDelete {κ ν : Type} [DecidableEq κ] {k : κ} {p : κ × ν}
    {l : List (κ × ν)} (h : p ∈ mapDelete k l) : p ∈ l ∧ p.1 ≠ k := by
  induction l with
  | nil => simp [mapDelete] at h
  | cons q rest ih =>
    obtain ⟨k₀, v₀⟩ := q
    by_cases h₀ : k₀ = k
    · rw [mapDelete, if_pos h₀] at h
      exact ⟨List.mem_cons_of_mem _ (ih h).1, (ih h).2⟩
    · rw [mapDelete, if_neg h₀] at h
      rcases List.mem_cons.mp h with h₁ | h₁
      · subst h₁
        exact ⟨List.mem_cons_self _ _, h₀⟩
      · exact ⟨List.mem_cons_of_mem _ (ih h₁).1, (ih h₁).2⟩

theorem mapGet_of_sublist {κ ν : Type} [DecidableEq κ] {k : κ} {v : ν}
    {l₁ l₂ : List (κ × ν)} (hnd : (l₂.map Prod.fst).Nodup) (hs : l₁.Sublist l₂)
    (h : mapGet k l₁ = some v) : mapGet k l₂ = some v :=
  mem_mapGet hnd (hs.subset (mapGet_mem h))

theorem mapGet_none_of_sublist {κ ν : Type} [DecidableEq κ] {k : κ}
    {l₁ l₂ : List (κ × ν)} (hs : l₁.Sublist l₂) (h : mapGet k l₂ = none) :
    mapGet k l₁ = none := by
  rw [mapGet_eq_none_iff] at h ⊢
  exact fun hk => h ((hs.map Prod.fst).subset hk)

theorem values_mapSet_subset {κ ν : Type} [DecidableEq κ] (k : κ) (v : ν)
    (l : List (κ × ν)) {b : ν} (h : b ∈ (mapSet k v l).map Prod.snd) :
    b = v ∨ b ∈ l.map Prod.snd := by
  rcases List.mem_map.mp h with ⟨p, hp, rfl⟩
  rcases mem_mapSet hp with h₁ | h₁
  · subst h₁
    exact Or.inl rfl
  · exact Or.inr (List.mem_map.mpr ⟨p, h₁, rfl⟩)

theorem nodup_values_mapSet {κ ν : Type} [DecidableEq κ] (k : κ) (v : ν)
    {l : List (κ × ν)} (hv : v ∉ l.map Prod.snd) (hnd : (l.map Prod.snd).Nodup) :
    ((mapSet k v l).map Prod.snd).Nodup := by
  induction l with
  | nil => simp [mapSet]
  | cons p rest ih =>
    obtain ⟨k₀, v₀⟩ := p
    simp only [List.map_cons, List.mem_cons, List.nodup_cons] at hv hnd
    by_cases h₀ : k₀ = k
    · rw [mapSet, if_pos h₀]
      simp only [List.map_cons, List.nodup_cons]
      exact ⟨fun h₁ => hv (Or.inr h₁), hnd.2⟩
    · rw [mapSet, if_neg h₀]
      simp only [List.map_cons, List.nodup_cons]
      refine ⟨fun h₁ => ?_, ih (fun h₁ => hv (Or.inr h₁)) hnd.2⟩
      rcases values_mapSet_subset k v rest h₁ with h₂ | h₂
      · exact hv (Or.inl h₂.symm)
      · exact hnd.1 h₂

theorem eq_key_of_nodup_values {κ ν : Type} {l : List (κ × ν)} {e₁ e₂ : κ} {s : ν}
    (hnd : (l.map Prod.snd).Nodup) (h₁ : (e₁, s) ∈ l) (h₂ : (e₂, s) ∈ l) :
    e₁ = e₂ := by
  induction l with
  | nil => simp at h₁
  | cons p rest ih =>
    simp only [List.map_cons, List.nodup_cons] at hnd
    rcases List.mem_cons.mp h₁ with g₁ | g₁ <;> rcases List.mem_cons.mp h₂ with g₂ | g₂
    · exact (Prod.ext_iff.mp (g₁.trans g₂.symm)).1
    · have hps : s = p.2 := congrArg Prod.snd g₁
      exact absurd (List.mem_map.mpr ⟨(e₂, s), g₂, hps⟩) hnd.1
    · have hps : s = p.2 := congrArg Prod.snd g₂
      exact absurd (List.mem_map.mpr ⟨(e₁, s), g₁, hps⟩) hnd.1
    · exact ih hnd.2 g₁ g₂

/-! Lemmas about the memory backend operations. -/

namespace MemoryStore

theorem destroy_maxAge {α : Type} (st : MemoryStore α) (sid : String) :
    (st.destroy sid).maxAge = st.maxAge := by
  rcases h : mapGet sid st.sessions with _ | sd <;> simp [destroy, h]

theorem destroy_sessions_sublist {α : Type} (st : MemoryStore α) (sid : String) :
    (st.destroy sid).sessions.Sublist st.sessions := by
  rcases h : mapGet sid st.sessions with _ | sd
  · simp only [destroy, h]
    exact List.Sublist.refl _
  · simp only [destroy, h]
    exact mapDelete_sublist sid st.sessions

theorem destroy_index_mem {α : Type} {st : MemoryStore α} {sid : String}
    {q : Nat × String} (h : q ∈ (st.destroy sid).expirationIndex) :
    q ∈ st.expirationIndex := by
  rcases hg : mapGet sid st.sessions with _ | sd
  · simpa [destroy, hg] using h
  · simp only [destroy, hg] at h
    exact (mem_mapDelete h).1

theorem get_maxAge {α : Type} (st : MemoryStore α) (now : Nat) (sid : String) :
    ((st.get now sid).2).maxAge = st.maxAge := by
  rcases hg : mapGet sid st.sessions with _ | sd
  · simp [get, hg]
  · simp only [get, hg]
    by_cases hlt : now > sd.expires
    · rw [if_pos hlt]
      exact destroy_maxAge st sid
    · rw [if_neg hlt]

theorem get_state_sessions_sublist {α : Type} (st : MemoryStore α) (now : Nat)
    (sid : String) : ((st.get now sid).2).sessions.Sublist st.sessions := by
  rcases hg : mapGet sid st.sessions with _ | sd
  · simp only [get, hg]
    exact List.Sublist.refl _
  · simp only [get, hg]
    by_cases hlt : now > sd.expires
    · rw [if_pos hlt]
      exact destroy_sessions_sublist st sid
    · rw [if_neg hlt]

theorem cleanupLoop_maxAge {α : Type} (now : Nat) (pending : List (Nat × String)) :
    ∀ st : MemoryStore α, (cleanupLoop now pending st).maxAge = st.maxAge := by
  induction pending with
  | nil => intro st; rfl
  | cons q rest ih =>
    intro st
    obtain ⟨e₀, sid₀⟩ := q
    simp only [cleanupLoop]
    by_cases h₁ : (mapGet e₀ st.expirationIndex).isSome = true
    · by_cases h₂ : e₀ ≤ now
      · rw [if_pos h₁, if_pos h₂, ih]
        exact destroy_maxAge st sid₀
      · rw [if_pos h₁, if_neg h₂]
    · rw [if_neg h₁]
      exact ih st

theorem cleanupLoop_sessions_sublist {α : Type} (now : Nat)
    (pending : List (Nat × String)) :
    ∀ st : MemoryStore α, (cleanupLoop now pending st).sessions.Sublist st.sessions := by
  induction pending with
  | nil => intro st; exact List.Sublist.refl _
  | cons q rest ih =>
    intro st
    obtain ⟨e₀, sid₀⟩ := q
    simp only [cleanupLoop]
    by_cases h₁ : (mapGet e₀ st.expirationIndex).isSome = true
    · by_cases h₂ : e₀ ≤ now
      · rw [if_pos h₁, if_pos h₂]
        exact (ih _).trans (destroy_sessions_sublist st sid₀)
      · rw [if_pos h₁, if_neg h₂]
    · rw [if_neg h₁]
      exact ih st

theorem step_maxAge {α : Type} (st : MemoryStore α) (now : Nat) (op : MemOp α) :
    (st.step now op).maxAge = st.maxAge := by
  cases op with
  | setOp sid s => rfl
  | getOp sid => exact get_maxAge st now sid
  | destroyOp sid => exact destroy_maxAge st sid
  | touchOp sid s =>
    rcases h : mapGet sid st.sessions with _ | sd <;> simp [step, touch, h]
  | cleanupOp => exact cleanupLoop_maxAge now st.expirationIndex st
  | rebuildOp => rfl

theorem WF_mono {α : Type} {st : MemoryStore α} {now₀ now : Nat} (h : WF st now₀)
    (hle : now₀ ≤ now) : WF st now :=
  ⟨h.1, fun p hp => (h.2 p hp).trans (Nat.add_le_add_right hle _)⟩

theorem WF_of_sessions_sublist {α : Type} {st st₁ : MemoryStore α} {now : Nat}
    (h : WF st now) (hs : st₁.sessions.Sublist st.sessions)
    (hm : st₁.maxAge = st.maxAge) : WF st₁ now := by
  refine ⟨h.1.sublist (hs.map Prod.fst), fun p hp => ?_⟩
  rw [hm]
  exact h.2 p (hs.subset hp)

theorem WF_set {α : Type} {st : MemoryStore α} {now₀ now : Nat} (h : WF st now₀)
    (hle : now₀ ≤ now) (sid : String) (s : α) : WF (st.set now sid s) now := by
  refine ⟨nodup_keys_mapSet _ _ h.1, fun p hp => ?_⟩
  rcases mem_mapSet hp with h₁ | h₁
  · subst h₁
    exact Nat.le_refl _
  · exact (h.2 p h₁).trans (Nat.add_le_add_right hle _)

theorem WF_touch {α : Type} {st : MemoryStore α} {now₀ now : Nat} (h : WF st now₀)
    (hle : now₀ ≤ now) (sid : String) (s : α) : WF (st.touch now sid s) now := by
  rcases hg : mapGet sid st.sessions with _ | sd
  · simp only [touch, hg]
    exact WF_mono h hle
  · simp only [touch, hg]
    refine ⟨nodup_keys_mapSet _ _ h.1, fun p hp => ?_⟩
    rcases mem_mapSet hp with h₁ | h₁
    · subst h₁
      exact Nat.le_refl _
    · exact (h.2 p h₁).trans (Nat.add_le_add_right hle _)

theorem WF_step {α : Type} {st : MemoryStore α} {now₀ now : Nat} {op : MemOp α}
    (h : WF st now₀) (hle : now₀ ≤ now) : WF (st.step now op) now := by
  cases op with
  | setOp sid s => exact WF_set h hle sid s
  | touchOp sid s => exact WF_touch h hle sid s
  | getOp sid =>
    exact WF_of_sessions_sublist (WF_mono h hle) (get_state_sessions_sublist st now sid)
      (get_maxAge st now sid)
  | destroyOp sid =>
    exact WF_of_sessions_sublist (WF_mono h hle) (destroy_sessions_sublist st sid)
      (destroy_maxAge st sid)
  | cleanupOp =>
    exact WF_of_sessions_sublist (WF_mono h hle)
      (cleanupLoop_sessions_sublist now st.expirationIndex st)
      (cleanupLoop_maxAge now st.expirationIndex st)
  | rebuildOp =>
    exact WF_of_sessions_sublist (WF_mono h hle) (List.filter_sublist _) rfl

theorem lookupExpires_eq_some {α : Type} {st : MemoryStore α} {sid : String} {e : Nat} :
    st.lookupExpires sid = some e ↔
      ∃ sd, mapGet sid st.sessions = some sd ∧ sd.expires = e := by
  unfold lookupExpires
  rcases mapGet sid st.sessions with _ | sd <;> simp

theorem lookupExpires_eq_none {α : Type} {st : MemoryStore α} {sid : String} :
    st.lookupExpires sid = none ↔ mapGet sid st.sessions = none := by
  unfold lookupExpires
  rcases mapGet sid st.sessions with _ | sd <;> simp

theorem lookup_sublist_eq {α : Type} {st st₁ : MemoryStore α} {sid : String} {e e₁ : Nat}
    (hnd : (st.sessions.map Prod.fst).Nodup)
    (hs : st₁.sessions.Sublist st.sessions)
    (h : st.lookupExpires sid = some e)
    (h₁ : st₁.lookupExpires sid = some e₁) : e₁ = e := by
  rcases lookupExpires_eq_some.mp h with ⟨sd, hg, he⟩
  rcases lookupExpires_eq_some.mp h₁ with ⟨sd₁, hg₁, he₁⟩
  have h₂ := mapGet_of_sublist hnd hs hg₁
  rw [hg] at h₂
  injection h₂ with h₂
  rw [← he, ← he₁, h₂]

theorem step_lookup_mono {α : Type} {st : MemoryStore α} {now₀ now : Nat} {op : MemOp α}
    (hwf : WF st now₀) (hle : now₀ ≤ now) {sid : String} {e e₁ : Nat}
    (h : st.lookupExpires sid = some e)
    (h₁ : (st.step now op).lookupExpires sid = some e₁) : e ≤ e₁ := by
  have hbound : e ≤ now + st.maxAge := by
    rcases lookupExpires_eq_some.mp h with ⟨sd, hg, he⟩
    exact he ▸ ((hwf.2 _ (mapGet_mem hg)).trans (Nat.add_le_add_right hle _))
  cases op with
  | setOp sid₀ s =>
    by_cases hs : sid₀ = sid
    · subst hs
      have h₂ : (st.step now (.setOp sid₀ s)).lookupExpires sid₀
          = some (now + st.maxAge) := by
        simp [step, MemoryStore.set, lookupExpires, mapGet_mapSet_self]
      rw [h₁] at h₂
      injection h₂ with h₂
      omega
    · have h₂ : (st.step now (.setOp sid₀ s)).lookupExpires sid
          = st.lookupExpires sid := by
        simp [step, MemoryStore.set, lookupExpires,
          mapGet_mapSet_ne _ _ (fun hc => hs hc.symm)]
      rw [h₂, h] at h₁
      injection h₁ with h₁
      exact Nat.le_of_eq h₁
  | touchOp sid₀ s =>
    rcases hg : mapGet sid₀ st.sessions with _ | sd₀
    · have h₂ : st.step now (.touchOp sid₀ s) = st := by
        simp [step, touch, hg]
      rw [h₂, h] at h₁
      injection h₁ with h₁
      exact Nat.le_of_eq h₁
    · by_cases hs : sid₀ = sid
      · subst hs
        have h₂ : (st.step now (.touchOp sid₀ s)).lookupExpires sid₀
            = some (now + st.maxAge) := by
          simp [step, touch, hg, lookupExpires, mapGet_mapSet_self]
        rw [h₁] at h₂
        injection h₂ with h₂
        omega
      · have h₂ : (st.step now (.touchOp sid₀ s)).lookupExpires sid
            = st.lookupExpires sid := by
          simp [step, touch, hg, lookupExpires,
            mapGet_mapSet_ne _ _ (fun hc => hs hc.symm)]
        rw [h₂, h] at h₁
        injection h₁ with h₁
        exact Nat.le_of_eq h₁
  | getOp sid₀ =>
    exact Nat.le_of_eq
      (lookup_sublist_eq hwf.1 (get_state_sessions_sublist st now sid₀) h h₁).symm
  | destroyOp sid₀ =>
    exact Nat.le_of_eq
      (lookup_sublist_eq hwf.1 (destroy_sessions_sublist st sid₀) h h₁).symm
  | cleanupOp =>
    exact Nat.le_of_eq
      (lookup_sublist_eq hwf.1 (cleanupLoop_sessions_sublist now st.expirationIndex st)
        h h₁).symm
  | rebuildOp =>
    exact Nat.le_of_eq (lookup_sublist_eq hwf.1 (List.filter_sublist _) h h₁).symm

theorem step_lookup_create {α : Type} {st : MemoryStore α} {now : Nat} {op : MemOp α}
    {sid : String} {e₁ : Nat}
    (hn : st.lookupExpires sid = none)
    (h₁ : (st.step now op).lookupExpires sid = some e₁) : e₁ = now + st.maxAge := by
  have hgn : mapGet sid st.sessions = none := lookupExpires_eq_none.mp hn
  cases op with
  | setOp sid₀ s =>
    by_cases hs : sid₀ = sid
    · subst hs
      have h₂ : (st.step now (.setOp sid₀ s)).lookupExpires sid₀
          = some (now + st.maxAge) := by
        simp [step, MemoryStore.set, lookupExpires, mapGet_mapSet_self]
      rw [h₁] at h₂
      exact Option.some.inj h₂
    · have h₂ : (st.step now (.setOp sid₀ s)).lookupExpires sid
          = st.lookupExpires sid := by
        simp [step, MemoryStore.set, lookupExpires,
          mapGet_mapSet_ne _ _ (fun hc => hs hc.symm)]
      rw [h₂, hn] at h₁
      exact Option.noConfusion h₁
  | touchOp sid₀ s =>
    rcases hg : mapGet sid₀ st.sessions with _ | sd₀
    · have h₂ : st.step now (.touchOp sid₀ s) = st := by
        simp [step, touch, hg]
      rw [h₂, hn] at h₁
      exact Option.noConfusion h₁
    · by_cases hs : sid₀ = sid
      · subst hs
        rw [hgn] at hg
        exact Option.noConfusion hg
      · have h₂ : (st.step now (.touchOp sid₀ s)).lookupExpires sid
            = st.lookupExpires sid := by
          simp [step, touch, hg, lookupExpires,
            mapGet_mapSet_ne _ _ (fun hc => hs hc.symm)]
        rw [h₂, hn] at h₁
        exact Option.noConfusion h₁
  | getOp sid₀ =>
    have h₂ : (st.step now (.getOp sid₀)).lookupExpires sid = none :=
      lookupExpires_eq_none.mpr
        (mapGet_none_of_sublist (get_state_sessions_sublist st now sid₀) hgn)
    rw [h₂] at h₁
    exact Option.noConfusion h₁
  | destroyOp sid₀ =>
    have h₂ : (st.step now (.destroyOp sid₀)).lookupExpires sid = none :=
      lookupExpires_eq_none.mpr
        (mapGet_none_of_sublist (destroy_sessions_sublist st sid₀) hgn)
    rw [h₂] at h₁
    exact Option.noConfusion h₁
  | cleanupOp =>
    have h₂ : (st.step now .cleanupOp).lookupExpires sid = none :=
      lookupExpires_eq_none.mpr
        (mapGet_none_of_sublist (cleanupLoop_sessions_sublist now st.expirationIndex st)
          hgn)
    rw [h₂] at h₁
    exact Option.noConfusion h₁
  | rebuildOp =>
    have h₂ : (st.step now .rebuildOp).lookupExpires sid = none :=
      lookupExpires_eq_none.mpr (mapGet_none_of_sublist (List.filter_sublist _) hgn)
    rw [h₂] at h₁
    exact Option.noConfusion h₁

/-- Across any timestamped operation sequence run from a well-formed store
under a non-decreasing clock, a final stored expiry for `sid` is bounded
below: by any initial expiry for `sid`, and, when `sid` was initially
absent, by `now₀ + maxAge`. -/
theorem run_lookup_bound {α : Type} (ops : List (Nat × MemOp α)) :
    ∀ (st : MemoryStore α) (now₀ : Nat), WF st now₀ →
      List.Chain (fun a b => a ≤ b) now₀ (ops.map Prod.fst) →
      ∀ (sid : String) (e₁ : Nat), (st.run ops).lookupExpires sid = some e₁ →
        (∀ e, st.lookupExpires sid = some e → e ≤ e₁)
        ∧ (st.lookupExpires sid = none → now₀ + st.maxAge ≤ e₁) := by
  induction ops with
  | nil =>
    intro st now₀ _ _ sid e₁ h₁
    simp only [run] at h₁
    refine ⟨fun e he => ?_, fun hn => ?_⟩
    · rw [he] at h₁
      exact Nat.le_of_eq (Option.some.inj h₁)
    · rw [hn] at h₁
      exact Option.noConfusion h₁
  | cons q rest ih =>
    intro st now₀ hwf hchain sid e₁ h₁
    obtain ⟨now, op⟩ := q
    rw [List.map_cons, List.chain_cons] at hchain
    obtain ⟨hle, hchain⟩ := hchain
    have hwf₁ : WF (st.step now op) now := WF_step hwf hle
    have hma : (st.step now op).maxAge = st.maxAge := step_maxAge st now op
    have hrun : st.run ((now, op) :: rest) = (st.step now op).run rest := rfl
    rw [hrun] at h₁
    obtain ⟨ha₁, ha₂⟩ := ih (st.step now op) now hwf₁ hchain sid e₁ h₁
    constructor
    · intro e he
      rcases h₂ : (st.step now op).lookupExpires sid with _ | e₂
      · have hb := ha₂ h₂
        rw [hma] at hb
        have he' : e ≤ now₀ + st.maxAge := by
          rcases lookupExpires_eq_some.mp he with ⟨sd, hg, hee⟩
          exact hee ▸ hwf.2 _ (mapGet_mem hg)
        omega
      · exact (step_lookup_mono hwf hle he h₂).trans (ha₁ e₂ h₂)
    · intro hn
      rcases h₂ : (st.step now op).lookupExpires sid with _ | e₂
      · have hb := ha₂ h₂
        rw [hma] at hb
        omega
      · have hc := step_lookup_create hn h₂
        have := ha₁ e₂ h₂
        omega

/-- When the pending iterator is sorted by key and covers every
still-present expired index key, the cleanup loop leaves no expired key in
the index. -/
theorem cleanupLoop_no_expired {α : Type} (now : Nat) (pending : List (Nat × String)) :
    ∀ st : MemoryStore α,
      pending.Pairwise (fun a b => a.1 ≤ b.1) →
      (∀ e sid, (e, sid) ∈ st.expirationIndex → e ≤ now →
        ∃ sid₁, (e, sid₁) ∈ pending) →
      ∀ e sid, (e, sid) ∈ (cleanupLoop now pending st).expirationIndex → now < e := by
  induction pending with
  | nil =>
    intro st _ hcover e sid hmem
    rcases Nat.lt_or_ge now e with h | h
    · exact h
    · rcases hcover e sid hmem h with ⟨sid₁, hmem₁⟩
      simp at hmem₁
  | cons q rest ih =>
    intro st hsorted hcover e sid hmem
    obtain ⟨e₀, sid₀⟩ := q
    rw [List.pairwise_cons] at hsorted
    simp only [cleanupLoop] at hmem
    by_cases h₁ : (mapGet e₀ st.expirationIndex).isSome = true
    · by_cases h₂ : e₀ ≤ now
      · rw [if_pos h₁, if_pos h₂] at hmem
        refine ih _ hsorted.2 ?_ e sid hmem
        intro e₂ sid₂ hmem₂ hle₂
        have h₃ := mem_mapDelete hmem₂
        have h₄ := destroy_index_mem h₃.1
        rcases hcover e₂ sid₂ h₄ hle₂ with ⟨sid₃, hmem₃⟩
        rcases List.mem_cons.mp hmem₃ with h₅ | h₅
        · exact absurd (congrArg Prod.fst h₅) h₃.2
        · exact ⟨sid₃, h₅⟩
      · rw [if_pos h₁, if_neg h₂] at hmem
        rcases Nat.lt_or_ge now e with h | h
        · exact h
        · exfalso
          rcases hcover e sid hmem h with ⟨sid₁, hmem₁⟩
          rcases List.mem_cons.mp hmem₁ with h₅ | h₅
          · have h₆ : e = e₀ := congrArg Prod.fst h₅
            exact h₂ (h₆ ▸ h)
          · exact h₂ ((hsorted.1 _ h₅).trans h)
    · rw [if_neg h₁] at hmem
      refine ih _ hsorted.2 ?_ e sid hmem
      intro e₂ sid₂ hmem₂ hle₂
      rcases hcover e₂ sid₂ hmem₂ hle₂ with ⟨sid₃, hmem₃⟩
      rcases List.mem_cons.mp hmem₃ with h₅ | h₅
      · exfalso
        have h₆ : e₂ = e₀ := congrArg Prod.fst h₅
        rw [h₆] at hmem₂
        exact h₁ (isSome_mapGet_of_mem hmem₂)
      · exact ⟨sid₃, h₅⟩

/-- Every entry of the index built by the rebuild walk comes from the
initial accumulator or from a live record of the walked list. -/
theorem rebuild_mem_source {α : Type} (now : Nat) (l : List (String × SessionData α)) :
    ∀ (acc : List (Nat × String)) (q : Nat × String),
      q ∈ List.foldl (rebuildStep now) acc l →
      q ∈ acc ∨ ∃ sd, (q.2, sd) ∈ l ∧ sd.expires = q.1 ∧ now < q.1 := by
  induction l with
  | nil =>
    intro acc q h
    exact Or.inl h
  | cons p xs ih =>
    intro acc q h
    rw [List.foldl_cons] at h
    rcases ih _ q h with h₁ | h₁
    · unfold rebuildStep at h₁
      by_cases hl : now < p.2.expires
      · rw [if_pos hl] at h₁
        rcases mem_mapSet h₁ with h₂ | h₂
        · subst h₂
          exact Or.inr ⟨p.2, List.mem_cons_self p xs, rfl, hl⟩
        · exact Or.inl h₂
      · rw [if_neg hl] at h₁
        exact Or.inl h₁
    · rcases h₁ with ⟨sd, hmem, he, hlt⟩
      exact Or.inr ⟨sd, List.mem_cons_of_mem _ hmem, he, hlt⟩

/-- The rebuild walk never removes a key from the index it builds. -/
theorem rebuild_isSome_mono {α : Type} (now : Nat) (l : List (String × SessionData α)) :
    ∀ (acc : List (Nat × String)) (e : Nat),
      (mapGet e acc).isSome = true →
      (mapGet e (List.foldl (rebuildStep now) acc l)).isSome = true := by
  induction l with
  | nil =>
    intro acc e h
    exact h
  | cons p xs ih =>
    intro acc e h
    rw [List.foldl_cons]
    refine ih _ e ?_
    unfold rebuildStep
    by_cases hl : now < p.2.expires
    · rw [if_pos hl]
      by_cases he : e = p.2.expires
      · subst he
        rw [mapGet_mapSet_self]
        rfl
      · rw [mapGet_mapSet_ne _ _ he]
        exact h
    · rw [if_neg hl]
      exact h

/-- Every live record of the walked list ends up with its expiry present
as a key of the rebuilt index. -/
theorem rebuild_covers {α : Type} (now : Nat) (l : List (String × SessionData α)) :
    ∀ (acc : List (Nat × String)) (sid : String) (sd : SessionData α),
      (sid, sd) ∈ l → now < sd.expires →
      (mapGet sd.expires (List.foldl (rebuildStep now) acc l)).isSome = true := by
  induction l with
  | nil =>
    intro acc sid sd h
    simp at h
  | cons p xs ih =>
    intro acc sid sd hmem hlt
    rw [List.foldl_cons]
    rcases List.mem_cons.mp hmem with h₁ | h₁
    · refine rebuild_isSome_mono now xs _ _ ?_
      rw [← h₁]
      simp [rebuildStep, hlt, mapGet_mapSet_self]
    · exact ih _ sid sd h₁ hlt

/-- The rebuilt index holds at most one entry per session id, provided the
walked list has no duplicate ids and the accumulator values are fresh. -/
theorem rebuild_values_nodup {α : Type} (now : Nat) (l : List (String × SessionData α)) :
    ∀ acc : List (Nat × String),
      (l.map Prod.fst).Nodup →
      (acc.map Prod.snd).Nodup →
      (∀ s ∈ acc.map Prod.snd, s ∉ l.map Prod.fst) →
      ((List.foldl (rebuildStep now) acc l).map Prod.snd).Nodup := by
  induction l with
  | nil =>
    intro acc _ h _
    exact h
  | cons p xs ih =>
    intro acc hndl hnda hdisj
    rw [List.foldl_cons]
    simp only [List.map_cons, List.nodup_cons] at hndl
    refine ih _ hndl.2 ?_ ?_
    · unfold rebuildStep
      by_cases hl : now < p.2.expires
      · rw [if_pos hl]
        refine nodup_values_mapSet _ _ (fun hmem => ?_) hnda
        exact hdisj _ hmem (List.mem_map.mpr ⟨p, List.mem_cons_self _ _, rfl⟩)
      · rw [if_neg hl]
        exact hnda
    · intro s hs
      unfold rebuildStep at hs
      by_cases hl : now < p.2.expires
      · rw [if_pos hl] at hs
        rcases values_mapSet_subset _ _ _ hs with h₂ | h₂
        · subst h₂
          exact hndl.1
        · intro hmem
          exact hdisj _ h₂ (by simp [hmem])
      · rw [if_neg hl] at hs
        intro hmem
        exact hdisj _ hs (by simp [hmem])

end MemoryStore

/-! The claims. -/

open MemoryStore in
/-- C1, amended.  The cleanup pass iterates the index in insertion order,
not in ascending key order (a JS Map is insertion-ordered); under the
additional hypothesis that the index entries are sorted by ascending
expiration time, the pass leaves no entry with `expires ≤ now` in the
index, and it stops at the first entry with `expires > now`. -/
theorem claim_C1 {α : Type} (st : MemoryStore α) (now : Nat)
    (hsorted : st.expirationIndex.Pairwise (fun a b => a.1 ≤ b.1)) :
    ∀ e sid, (e, sid) ∈ (st.cleanupSessions now).expirationIndex → now < e :=
  cleanupLoop_no_expired now st.expirationIndex st hsorted
    (fun _ sid hmem _ => ⟨sid, hmem⟩)

/-- C1 witness: a sorted two-entry index at clock 20 keeps only the entry
with key 30 after cleanup, and that key is not expired. -/
theorem claim_C1_witness : (20 : Nat) < 30 :=
  claim_C1
    (⟨[("a", ⟨1, 10⟩), ("b", ⟨2, 30⟩)], [(10, "a"), (30, "b")], 100⟩ : MemoryStore Nat)
    20 (by decide) 30 "b" (by decide)

/-- C1 counterexample: after set s1 at 0, set s2 at 10, touch s1 at 20 and
rebuildIndex at 30 (maxAge 100), the index reads
[(120, s1), (110, s2)] — not ascending; cleanupSessions at 115 stops at
the very first entry (120 > 115) and leaves the expired entry (110, s2)
in the index, with the expired record still stored, refuting the claimed
postcondition that no entry with `expires ≤ now` remains. -/
theorem claim_C1_counterexample :
    mapGet 110
        ((((((⟨[], [], 100⟩ : MemoryStore Nat).set 0 "s1" 1).set 10 "s2" 2).touch 20
            "s1" 3).rebuildIndex 30).cleanupSessions 115).expirationIndex
      = some "s2"
    ∧ (110 : Nat) ≤ 115
    ∧ mapGet "s2"
        ((((((⟨[], [], 100⟩ : MemoryStore Nat).set 0 "s1" 1).set 10 "s2" 2).touch 20
            "s1" 3).rebuildIndex 30).cleanupSessions 115).sessions
      = some ⟨2, 110⟩ := by
  decide

/-- C2 exhibit: the claim requires `get` to miss (and destroy) whenever
`now ≥ expiresAt`, but the source tests `Date.now() > expires`, so at the
boundary `now = expiresAt` the payload is returned, while at the same
instant `all()` excludes the record and `cleanupSessions` destroys it. -/
theorem claim_C2 :
    ((⟨[("s1", ⟨1, 100⟩)], [(100, "s1")], 50⟩ : MemoryStore Nat).get 100 "s1").1
      = some 1
    ∧ ((⟨[("s1", ⟨1, 100⟩)], [(100, "s1")], 50⟩ : MemoryStore Nat).all 100).1 = []
    ∧ mapGet "s1"
        ((⟨[("s1", ⟨1, 100⟩)], [(100, "s1")], 50⟩ :
          MemoryStore Nat).cleanupSessions 100).sessions = none := by
  decide

/-- C3: `set` stores the payload under the id with expiry
`now + maxAge`, writes the entry `expires → id` into the secondary index,
and leaves every index entry under a different key untouched (in
particular a stale index entry of this id under an older expiry stays).
The model has no failure case, matching the missing error path. -/
theorem claim_C3 {α : Type} (st : MemoryStore α) (now : Nat) (sid : String)
    (session : α) :
    mapGet sid (st.set now sid session).sessions = some ⟨session, now + st.maxAge⟩
    ∧ mapGet (now + st.maxAge) (st.set now sid session).expirationIndex = some sid
    ∧ ∀ e, e ≠ now + st.maxAge →
        mapGet e (st.set now sid session).expirationIndex
          = mapGet e st.expirationIndex := by
  refine ⟨?_, ?_, fun e he => ?_⟩
  · exact mapGet_mapSet_self sid _ st.sessions
  · exact mapGet_mapSet_self _ sid st.expirationIndex
  · exact mapGet_mapSet_ne sid st.expirationIndex he

/-- C3 witness: setting id a at clock 7 with maxAge 5 leaves the old index
entry under key 9 unchanged. -/
theorem claim_C3_witness :
    mapGet 9 ((⟨[], [(9, "b")], 5⟩ : MemoryStore Nat).set 7 "a" 42).expirationIndex
      = mapGet 9 ([(9, "b")] : List (Nat × String)) :=
  (claim_C3 (⟨[], [(9, "b")], 5⟩ : MemoryStore Nat) 7 "a" 42).2.2 9 (by decide)

/-- C4, amended.  After one rebuild pass every expired record is gone from
the primary map and the swapped-in index is sound (every entry denotes a
live record, keyed by its expiry) and complete on keys (every live record
has its expiry present as a key), with at most one entry per id; but when
two live records share one expiry the single map key holds only the id of
the later record in primary-map order, so the original claim that the
index contains an `expires → id` entry for EVERY live record only holds
when live expiries are pairwise distinct. -/
theorem claim_C4 {α : Type} (st : MemoryStore α) (now : Nat)
    (hnd : (st.sessions.map Prod.fst).Nodup) :
    (∀ sid sd, (sid, sd) ∈ st.sessions → sd.expires ≤ now →
        mapGet sid (st.rebuildIndex now).sessions = none)
    ∧ (∀ e sid, (e, sid) ∈ (st.rebuildIndex now).expirationIndex →
        ∃ sd, (sid, sd) ∈ st.sessions ∧ sd.expires = e ∧ now < e)
    ∧ (∀ sid sd, (sid, sd) ∈ st.sessions → now < sd.expires →
        (mapGet sd.expires (st.rebuildIndex now).expirationIndex).isSome = true)
    ∧ (∀ e₁ e₂ sid, (e₁, sid) ∈ (st.rebuildIndex now).expirationIndex →
        (e₂, sid) ∈ (st.rebuildIndex now).expirationIndex → e₁ = e₂)
    ∧ ((∀ s₁ d₁ s₂ d₂, (s₁, d₁) ∈ st.sessions → (s₂, d₂) ∈ st.sessions →
          now < d₁.expires → now < d₂.expires → d₁.expires = d₂.expires → s₁ = s₂) →
        ∀ sid sd, (sid, sd) ∈ st.sessions → now < sd.expires →
          mapGet sd.expires (st.rebuildIndex now).expirationIndex = some sid) := by
  have hb : ∀ e sid, (e, sid) ∈ (st.rebuildIndex now).expirationIndex →
      ∃ sd, (sid, sd) ∈ st.sessions ∧ sd.expires = e ∧ now < e := by
    intro e sid hmem
    rcases MemoryStore.rebuild_mem_source now st.sessions [] (e, sid) hmem with h₁ | h₁
    · simp at h₁
    · exact h₁
  have hc : ∀ sid sd, (sid, sd) ∈ st.sessions → now < sd.expires →
      (mapGet sd.expires (st.rebuildIndex now).expirationIndex).isSome = true :=
    fun sid sd hmem hlt => MemoryStore.rebuild_covers now st.sessions [] sid sd hmem hlt
  have hdv : ((st.rebuildIndex now).expirationIndex.map Prod.snd).Nodup :=
    MemoryStore.rebuild_values_nodup now st.sessions [] hnd (by simp) (by simp)
  refine ⟨?_, hb, hc, fun e₁ e₂ sid h₁ h₂ => eq_key_of_nodup_values hdv h₁ h₂, ?_⟩
  · intro sid sd hmem hle
    rcases hg : mapGet sid (st.rebuildIndex now).sessions with _ | v
    · rfl
    · exfalso
      have hv' : (sid, v) ∈ st.sessions.filter (fun p => decide (now < p.2.expires)) :=
        mapGet_mem hg
      rcases List.mem_filter.mp hv' with ⟨hvl, hvc⟩
      have h₁ := mem_mapGet hnd hvl
      have h₂ := mem_mapGet hnd hmem
      rw [h₁] at h₂
      injection h₂ with h₂
      subst h₂
      simp only [decide_eq_true_eq] at hvc
      omega
  · intro hinj sid sd hmem hlt
    have hsome := hc sid sd hmem hlt
    rcases hg : mapGet sd.expires (st.rebuildIndex now).expirationIndex with _ | sid₁
    · rw [hg] at hsome
      exact absurd hsome (by simp)
    · have hmem₁ := mapGet_mem hg
      rcases hb _ _ hmem₁ with ⟨sd₁, hm₁, he₁, hlt₁⟩
      have hss : sid₁ = sid := hinj sid₁ sd₁ sid sd hm₁ hmem (he₁.symm ▸ hlt₁) hlt he₁
      rw [hss]

/-- C4 witness: rebuilding at clock 100 deletes the expired record a. -/
theorem claim_C4_witness :
    mapGet "a" ((⟨[("a", ⟨1, 10⟩), ("b", ⟨2, 200⟩)], [(10, "a"), (200, "b")], 50⟩ :
        MemoryStore Nat).rebuildIndex 100).sessions = none :=
  (claim_C4 (⟨[("a", ⟨1, 10⟩), ("b", ⟨2, 200⟩)], [(10, "a"), (200, "b")], 50⟩ :
      MemoryStore Nat) 100 (by decide)).1 "a" ⟨1, 10⟩ (by decide) (by decide)

/-- C4 counterexample: two records set at the same clock share the expiry
100; after rebuildIndex at 50 the record s1 is still live in the primary
map but the rebuilt index contains no entry (100, s1) — the single key
100 holds s2 — refuting the claim that the new index contains an
`expires → id` entry for every still-live record. -/
theorem claim_C4_counterexample :
    mapGet "s1" ((((⟨[], [], 100⟩ : MemoryStore Nat).set 0 "s1" 1).set 0 "s2"
        2).rebuildIndex 50).sessions = some ⟨1, 100⟩
    ∧ (50 : Nat) < 100
    ∧ (100, "s1") ∉ ((((⟨[], [], 100⟩ : MemoryStore Nat).set 0 "s1" 1).set 0 "s2"
        2).rebuildIndex 50).expirationIndex := by
  decide

/-- C5: `touch` on an absent id returns the state unchanged (no record is
created); on a present id it overwrites the payload, extends the expiry to
`now + maxAge`, removes the index entry keyed by the old expiry, inserts
the entry for the new expiry, and leaves all other index keys unchanged. -/
theorem claim_C5 {α : Type} (st : MemoryStore α) (now : Nat) (sid : String)
    (session : α) :
    (mapGet sid st.sessions = none → st.touch now sid session = st)
    ∧ ∀ sd, mapGet sid st.sessions = some sd →
        mapGet sid (st.touch now sid session).sessions
            = some ⟨session, now + st.maxAge⟩
        ∧ mapGet (now + st.maxAge) (st.touch now sid session).expirationIndex
            = some sid
        ∧ (sd.expires ≠ now + st.maxAge →
            mapGet sd.expires (st.touch now sid session).expirationIndex = none)
        ∧ ∀ k, k ≠ sd.expires → k ≠ now + st.maxAge →
            mapGet k (st.touch now sid session).expirationIndex
              = mapGet k st.expirationIndex := by
  constructor
  · intro h
    simp [MemoryStore.touch, h]
  · intro sd h
    refine ⟨?_, ?_, fun hne => ?_, fun k hk₁ hk₂ => ?_⟩
    · simp only [MemoryStore.touch, h]
      exact mapGet_mapSet_self sid _ st.sessions
    · simp only [MemoryStore.touch, h]
      exact mapGet_mapSet_self _ sid _
    · simp only [MemoryStore.touch, h]
      rw [mapGet_mapSet_ne _ _ hne]
      exact mapGet_mapDelete_self sd.expires st.expirationIndex
    · simp only [MemoryStore.touch, h]
      rw [mapGet_mapSet_ne _ _ hk₂]
      exact mapGet_mapDelete_ne st.expirationIndex hk₁

/-- C5 witness: touching a present record at clock 7 with maxAge 5 stores
the new payload with expiry 12 and removes the index entry keyed 10. -/
theorem claim_C5_witness :
    mapGet "a"
        ((⟨[("a", ⟨1, 10⟩)], [(10, "a")], 5⟩ : MemoryStore Nat).touch 7 "a" 2).sessions
      = some ⟨2, 12⟩
    ∧ mapGet 10
        ((⟨[("a", ⟨1, 10⟩)], [(10, "a")], 5⟩ :
          MemoryStore Nat).touch 7 "a" 2).expirationIndex
      = none :=
  ⟨((claim_C5 (⟨[("a", ⟨1, 10⟩)], [(10, "a")], 5⟩ : MemoryStore Nat) 7 "a" 2).2
      ⟨1, 10⟩ (by decide)).1,
   ((claim_C5 (⟨[("a", ⟨1, 10⟩)], [(10, "a")], 5⟩ : MemoryStore Nat) 7 "a" 2).2
      ⟨1, 10⟩ (by decide)).2.2.1 (by decide)⟩

/-- C6: a `set` followed by a `get` before the stored expiry returns a
payload structurally equal to the one that was set. -/
theorem claim_C6 {α : Type} (st : MemoryStore α) (now₁ now₂ : Nat) (sid : String)
    (session : α) (h : now₂ < now₁ + st.maxAge) :
    ((st.set now₁ sid session).get now₂ sid).1 = some session := by
  have hget : mapGet sid (st.set now₁ sid session).sessions
      = some ⟨session, now₁ + st.maxAge⟩ := mapGet_mapSet_self sid _ st.sessions
  simp only [MemoryStore.get, hget]
  rw [if_neg (Nat.not_lt.mpr (Nat.le_of_lt h))]

/-- C6 witness: set at clock 3 with maxAge 5, get at clock 7. -/
theorem claim_C6_witness :
    (((⟨[], [], 5⟩ : MemoryStore Nat).set 3 "a" 9).get 7 "a").1 = some 9 :=
  claim_C6 (⟨[], [], 5⟩ : MemoryStore Nat) 3 7 "a" 9 (by decide)

/-- C7: `all` leaves the store untouched and returns exactly the
`(id, payload)` pairs of the records with `expires > now`. -/
theorem claim_C7 {α : Type} (st : MemoryStore α) (now : Nat)
    (hnd : (st.sessions.map Prod.fst).Nodup) :
    (st.all now).2 = st
    ∧ ∀ (sid : String) (p : α), (sid, p) ∈ (st.all now).1 ↔
        ∃ sd, mapGet sid st.sessions = some sd ∧ sd.data = p ∧ now < sd.expires := by
  refine ⟨rfl, fun sid p => ⟨fun hmem => ?_, fun hex => ?_⟩⟩
  · simp only [MemoryStore.all, List.mem_map] at hmem
    rcases hmem with ⟨q, hq, hqe⟩
    obtain ⟨qs, qd⟩ := q
    rcases List.mem_filter.mp hq with ⟨hql, hqc⟩
    rw [Prod.ext_iff] at hqe
    obtain ⟨h₁, h₂⟩ := hqe
    simp only at h₁ h₂
    subst h₁
    exact ⟨qd, mem_mapGet hnd hql, h₂, by simpa using hqc⟩
  · rcases hex with ⟨sd, hget, hdata, hlt⟩
    simp only [MemoryStore.all, List.mem_map]
    refine ⟨(sid, sd), List.mem_filter.mpr ⟨mapGet_mem hget, by simpa using hlt⟩, ?_⟩
    simp [hdata]

/-- C7 witness: at clock 100 `all` returns the live record b and not the
expired record a. -/
theorem claim_C7_witness :
    ("b", 4) ∈ ((⟨[("a", ⟨3, 10⟩), ("b", ⟨4, 200⟩)], [(10, "a"), (200, "b")], 50⟩ :
        MemoryStore Nat).all 100).1 :=
  ((claim_C7 (⟨[("a", ⟨3, 10⟩), ("b", ⟨4, 200⟩)], [(10, "a"), (200, "b")], 50⟩ :
      MemoryStore Nat) 100 (by decide)).2 "b" 4).mpr
    ⟨⟨4, 200⟩, by decide, rfl, by decide⟩

/-- C8: the file backend read path distinguishes its four outcomes: a
missing file is a plain miss, an unreadable file is a read error, an
unparsable file is a corruption error distinct from the miss, a parsed
record with `expires ≤ now` is deleted and reported as a miss, and a
still-live record yields its payload with the file left in place. -/
theorem claim_C8 {α : Type} (now : Nat) (r : FileRecord α) (e : Nat) :
    FileStore.get (FileState.absent : FileState α) now
        = (FileGetResult.noRecord, FileState.absent)
    ∧ FileStore.get (FileState.unreadable : FileState α) now
        = (FileGetResult.readFailure, FileState.unreadable)
    ∧ FileStore.get (FileState.content none : FileState α) now
        = (FileGetResult.parseFailure, FileState.content none)
    ∧ (r.expires = some e → e ≤ now →
        FileStore.get (FileState.content (some r)) now
          = (FileGetResult.noRecord, FileState.absent))
    ∧ (r.expires = some e → now < e →
        FileStore.get (FileState.content (some r)) now
          = (FileGetResult.found r.session, FileState.content (some r))) := by
  refine ⟨rfl, rfl, rfl, fun he hle => ?_, fun he hlt => ?_⟩
  · simp [FileStore.get, he, hle]
  · simp [FileStore.get, he, Nat.not_le.mpr hlt]

/-- C8 witness: a record expiring at 5 is reclaimed by a read at clock 10
and returned intact by a read at clock 2. -/
theorem claim_C8_witness :
    FileStore.get (FileState.content (some (⟨"s", 7, some 5⟩ : FileRecord Nat))) 10
      = (FileGetResult.noRecord, FileState.absent)
    ∧ FileStore.get (FileState.content (some (⟨"s", 7, some 5⟩ : FileRecord Nat))) 2
      = (FileGetResult.found 7, FileState.content (some ⟨"s", 7, some 5⟩)) :=
  ⟨(claim_C8 10 (⟨"s", 7, some 5⟩ : FileRecord Nat) 5).2.2.2.1 rfl (by decide),
   (claim_C8 2 (⟨"s", 7, some 5⟩ : FileRecord Nat) 5).2.2.2.2 rfl (by decide)⟩

/-- C9: across any sequence of the store operations run under a
non-decreasing clock from a well-formed store, a stored expiry for an id
never decreases: whenever the id is present before and after the
sequence, the final expiry is at least the initial one (across any
interleaving of set, get, destroy, touch, cleanup and rebuild steps, and
even across deletion and re-creation of the id). -/
theorem claim_C9 {α : Type} (st : MemoryStore α) (now₀ : Nat)
    (ops : List (Nat × MemoryStore.MemOp α)) (hwf : MemoryStore.WF st now₀)
    (hchain : List.Chain (fun a b => a ≤ b) now₀ (ops.map Prod.fst))
    (sid : String) (e e₁ : Nat)
    (h : st.lookupExpires sid = some e)
    (h₁ : (st.run ops).lookupExpires sid = some e₁) : e ≤ e₁ :=
  (MemoryStore.run_lookup_bound ops st now₀ hwf hchain sid e₁ h₁).1 e h

/-- C9 witness: a record with expiry 10, touched at clock 6 with
maxAge 7, ends with expiry 13 ≥ 10. -/
theorem claim_C9_witness : (10 : Nat) ≤ 13 :=
  claim_C9 (⟨[("a", ⟨5, 10⟩)], [(10, "a")], 7⟩ : MemoryStore Nat) 5
    [(6, MemoryStore.MemOp.touchOp "a" 9)] ⟨by decide, by decide⟩
    (List.Chain.cons (by decide) List.Chain.nil)
    "a" 10 13 (by decide) (by decide)

/-- C10: two sets at the same clock produce records sharing one expiry;
the single index entry under that timestamp holds the most recently
indexed id, and a later destroy of the other id (or a get of it once
expired, which destroys it) removes the index entry keyed by that shared
expiry even though the entry points at the still-live other record. -/
theorem claim_C10 {α : Type} (st : MemoryStore α) (now : Nat) (sid₁ sid₂ : String)
    (p₁ p₂ : α) (h : sid₁ ≠ sid₂) :
    mapGet (now + st.maxAge)
        ((st.set now sid₁ p₁).set now sid₂ p₂).expirationIndex = some sid₂
    ∧ mapGet sid₂ (((st.set now sid₁ p₁).set now sid₂ p₂).destroy sid₁).sessions
        = some ⟨p₂, now + st.maxAge⟩
    ∧ mapGet (now + st.maxAge)
        (((st.set now sid₁ p₁).set now sid₂ p₂).destroy sid₁).expirationIndex = none
    ∧ mapGet (now + st.maxAge)
        ((((st.set now sid₁ p₁).set now sid₂ p₂).get (now + st.maxAge + 1)
            sid₁).2).expirationIndex = none := by
  have hsess : ((st.set now sid₁ p₁).set now sid₂ p₂).sessions
      = mapSet sid₂ ⟨p₂, now + st.maxAge⟩
          (mapSet sid₁ ⟨p₁, now + st.maxAge⟩ st.sessions) := rfl
  have hidx : ((st.set now sid₁ p₁).set now sid₂ p₂).expirationIndex
      = mapSet (now + st.maxAge) sid₂
          (mapSet (now + st.maxAge) sid₁ st.expirationIndex) := rfl
  have hs₁ : mapGet sid₁ ((st.set now sid₁ p₁).set now sid₂ p₂).sessions
      = some ⟨p₁, now + st.maxAge⟩ := by
    rw [hsess, mapGet_mapSet_ne _ _ h]
    exact mapGet_mapSet_self _ _ _
  refine ⟨?_, ?_, ?_, ?_⟩
  · rw [hidx]
    exact mapGet_mapSet_self _ _ _
  · simp only [MemoryStore.destroy, hs₁]
    rw [hsess, mapGet_mapDelete_ne _ (fun hc => h hc.symm)]
    exact mapGet_mapSet_self _ _ _
  · simp only [MemoryStore.destroy, hs₁]
    exact mapGet_mapDelete_self _ _
  · simp only [MemoryStore.get, hs₁]
    rw [if_pos (Nat.lt_succ_self _)]
    simp only [MemoryStore.destroy, hs₁]
    exact mapGet_mapDelete_self _ _

/-- C10 witness: ids x and y set at clock 0 with maxAge 8 share expiry 8;
destroying x removes the index entry for key 8 that points at y. -/
theorem claim_C10_witness :
    mapGet 8 (((⟨[], [], 8⟩ : MemoryStore Nat).set 0 "x" 1).set 0 "y" 2).expirationIndex
      = some "y"
    ∧ mapGet 8 ((((⟨[], [], 8⟩ : MemoryStore Nat).set 0 "x" 1).set 0 "y"
        2).destroy "x").expirationIndex = none :=
  ⟨(claim_C10 (⟨[], [], 8⟩ : MemoryStore Nat) 0 "x" "y" 1 2 (by decide)).1,
   (claim_C10 (⟨[], [], 8⟩ : MemoryStore Nat) 0 "x" "y" 1 2 (by decide)).2.2.1⟩

end SessionStore
